import Mathlib

/-!
Verification of the leptos_sse client synchronization core.

The development shallowly embeds the client-side machinery of
src/lib.rs: the update envelope (ServerSignalUpdate), the wasm32
message handler installed by provide_sse_inner, the two signal
registries (STATE_SIGNALS, STATE_SIGNALS_LOCAL), the pending patch
buffer (DELAYED_UPDATES) and the registration functions
setup_sse_signal / setup_sse_signal_local.

JSON values are modelled with objects in the canonical sorted-map
form used by serde_json (BTreeMap keys are strictly increasing).
The diff engine and patch applier live in the external json_patch
crate, whose source is not part of this repository; they are
modelled from the specification (structural recursive diff into
objects and arrays, RFC 6902 style application of an ordered
operation list, all-or-nothing per patch).

Machine-level details that the claims do not touch (the browser
EventSource object itself, reactive effect propagation into typed
leptos signals, log message text) are abstracted: the event source
is an opaque identifier, a cell is its current JSON value, and log
calls are recorded as an explicit event list.
-/

namespace LeptosSse

/-- JSON values as handled by serde_json: null, booleans, numbers,
strings, arrays and objects.  Object fields are kept as an
association list; the canonical (BTreeMap) form with strictly
sorted keys is singled out by the predicate `canon` below. -/
inductive Value where
  | null : Value
  | bool (b : Bool) : Value
  | num (n : Int) : Value
  | str (s : String) : Value
  | arr (elems : List Value) : Value
  | obj (fields : List (String × Value)) : Value
deriving Repr

mutual

/-- Structural equality test on values, mirroring serde_json's
derived equality on the canonical form. -/
def vbeq : Value → Value → Bool
  | .null, .null => true
  | .bool a, .bool b => a == b
  | .num a, .num b => a == b
  | .str a, .str b => a == b
  | .arr a, .arr b => vbeqList a b
  | .obj a, .obj b => vbeqFields a b
  | _, _ => false

/-- Pointwise equality test on value lists. -/
def vbeqList : List Value → List Value → Bool
  | [], [] => true
  | x :: xs, y :: ys => vbeq x y && vbeqList xs ys
  | _, _ => false

/-- Pointwise equality test on field lists. -/
def vbeqFields : List (String × Value) → List (String × Value) → Bool
  | [], [] => true
  | (k1, v1) :: xs, (k2, v2) :: ys => k1 == k2 && vbeq v1 v2 && vbeqFields xs ys
  | _, _ => false

end

mutual

theorem vbeq_iff_eq : ∀ a b : Value, vbeq a b = true ↔ a = b
  | .null, .null => by simp [vbeq]
  | .bool _, .bool _ => by simp [vbeq]
  | .num _, .num _ => by simp [vbeq]
  | .str _, .str _ => by simp [vbeq]
  | .arr x, .arr y => by simp [vbeq, vbeqList_iff_eq x y]
  | .obj x, .obj y => by simp [vbeq, vbeqFields_iff_eq x y]
  | .null, .bool _ | .null, .num _ | .null, .str _ | .null, .arr _ | .null, .obj _
  | .bool _, .null | .bool _, .num _ | .bool _, .str _ | .bool _, .arr _ | .bool _, .obj _
  | .num _, .null | .num _, .bool _ | .num _, .str _ | .num _, .arr _ | .num _, .obj _
  | .str _, .null | .str _, .bool _ | .str _, .num _ | .str _, .arr _ | .str _, .obj _
  | .arr _, .null | .arr _, .bool _ | .arr _, .num _ | .arr _, .str _ | .arr _, .obj _
  | .obj _, .null | .obj _, .bool _ | .obj _, .num _ | .obj _, .str _ | .obj _, .arr _ => by
    simp [vbeq]

theorem vbeqList_iff_eq : ∀ xs ys : List Value, vbeqList xs ys = true ↔ xs = ys
  | [], [] => by simp [vbeqList]
  | x :: xs, y :: ys => by simp [vbeqList, vbeq_iff_eq x y, vbeqList_iff_eq xs ys]
  | [], _ :: _ => by simp [vbeqList]
  | _ :: _, [] => by simp [vbeqList]

theorem vbeqFields_iff_eq : ∀ xs ys : List (String × Value), vbeqFields xs ys = true ↔ xs = ys
  | [], [] => by simp [vbeqFields]
  | (k1, v1) :: xs, (k2, v2) :: ys => by
    simp [vbeqFields, vbeq_iff_eq v1 v2, vbeqFields_iff_eq xs ys, and_assoc]
  | [], _ :: _ => by simp [vbeqFields]
  | _ :: _, [] => by simp [vbeqFields]

end

instance : DecidableEq Value := fun a b =>
  decidable_of_iff (vbeq a b = true) (vbeq_iff_eq a b)

/-- Error kinds of the patch applier (spec section 4.2 / section 7):
a pointer that does not resolve, an operation that is structurally
inapplicable, or a failed test operation. -/
inductive PatchError where
  | pathNotFound : PatchError
  | typeMismatch : PatchError
  | testFailed : PatchError
deriving DecidableEq, Repr

/-- One token of an RFC 6902 pointer: an object member name or an
array index.  The slash-delimited wire syntax is modelled as the
token list directly. -/
inductive PTok where
  | key (s : String) : PTok
  | idx (n : Nat) : PTok
deriving DecidableEq, Repr

/-- A pointer path into a JSON value. -/
abbrev Path := List PTok

/-- A single RFC 6902 patch operation (spec section 3,
PatchOperation): add, remove, replace, move, copy or test, each
addressed by pointer paths. -/
inductive Op where
  | add (path : Path) (v : Value) : Op
  | remove (path : Path) : Op
  | replace (path : Path) (v : Value) : Op
  | move (src dst : Path) : Op
  | copy (src dst : Path) : Op
  | test (path : Path) (v : Value) : Op
deriving DecidableEq, Repr

/-- An ordered patch: the `Patch` wire type of ServerSignalUpdate. -/
abbrev Patch := List Op

/-- Map over the ok branch of an applier result, keeping errors. -/
def emap (f : Value → Value) : Except PatchError Value → Except PatchError Value
  | .error e => .error e
  | .ok v => .ok (f v)

/-- Field lookup by key in an object's field list. -/
def lookupF (k : String) : List (String × Value) → Option Value
  | [] => none
  | (k2, v) :: rest => if k = k2 then some v else lookupF k rest

/-- Does the field list contain the key. -/
def hasKey (k : String) : List (String × Value) → Bool
  | [] => false
  | (k2, _) :: rest => if k = k2 then true else hasKey k rest

/-- Replace the value stored under an existing key, keeping its
position; identity when the key is absent. -/
def objSet (k : String) (v : Value) : List (String × Value) → List (String × Value)
  | [] => []
  | (k2, v2) :: rest => if k = k2 then (k, v) :: rest else (k2, v2) :: objSet k v rest

/-- Map insertion in sorted-key order, replacing an equal key:
the behavior of a BTreeMap insert read back in key order. -/
def objInsert (k : String) (v : Value) : List (String × Value) → List (String × Value)
  | [] => [(k, v)]
  | (k2, v2) :: rest =>
    if k < k2 then (k, v) :: (k2, v2) :: rest
    else if k = k2 then (k, v) :: rest
    else (k2, v2) :: objInsert k v rest

/-- Remove the entry for a key (first occurrence). -/
def objRemove (k : String) : List (String × Value) → List (String × Value)
  | [] => []
  | (k2, v2) :: rest => if k = k2 then rest else (k2, v2) :: objRemove k rest

/-- Rebuild a value around an edit of the child selected by one
pointer token, failing when the token does not resolve. -/
def updChild (t : PTok) (v : Value) (f : Value → Except PatchError Value) :
    Except PatchError Value :=
  match t, v with
  | .key k, .obj fs =>
    match lookupF k fs with
    | some c => emap (fun c2 => .obj (objSet k c2 fs)) (f c)
    | none => .error .pathNotFound
  | .idx n, .arr xs =>
    if h : n < xs.length then emap (fun c2 => .arr (xs.set n c2)) (f (xs.get ⟨n, h⟩))
    else .error .pathNotFound
  | _, _ => .error .pathNotFound

/-- The final step of an add: insert a member, or insert an array
element at an index that may equal the length (append). -/
def addLeaf (t : PTok) (nv : Value) (v : Value) : Except PatchError Value :=
  match t, v with
  | .key k, .obj fs => .ok (.obj (objInsert k nv fs))
  | .idx n, .arr xs =>
    if n ≤ xs.length then .ok (.arr (xs.insertIdx n nv)) else .error .typeMismatch
  | _, _ => .error .pathNotFound

/-- RFC 6902 add: at the root it replaces the whole document,
otherwise it navigates to the parent and inserts. -/
def doAdd : Path → Value → Value → Except PatchError Value
  | [], nv, _ => .ok nv
  | [t], nv, v => addLeaf t nv v
  | t :: t2 :: rest, nv, v => updChild t v (doAdd (t2 :: rest) nv)

/-- The final step of a remove: the member or element must exist. -/
def removeLeaf (t : PTok) (v : Value) : Except PatchError Value :=
  match t, v with
  | .key k, .obj fs =>
    if hasKey k fs then .ok (.obj (objRemove k fs)) else .error .pathNotFound
  | .idx n, .arr xs =>
    if n < xs.length then .ok (.arr (xs.eraseIdx n)) else .error .pathNotFound
  | _, _ => .error .pathNotFound

/-- RFC 6902 remove; removing the root document is not a
resolvable operation. -/
def doRemove : Path → Value → Except PatchError Value
  | [], _ => .error .pathNotFound
  | [t], v => removeLeaf t v
  | t :: t2 :: rest, v => updChild t v (doRemove (t2 :: rest))

/-- The final step of a replace: the member or element must exist. -/
def replaceLeaf (t : PTok) (nv : Value) (v : Value) : Except PatchError Value :=
  match t, v with
  | .key k, .obj fs =>
    if hasKey k fs then .ok (.obj (objSet k nv fs)) else .error .pathNotFound
  | .idx n, .arr xs =>
    if n < xs.length then .ok (.arr (xs.set n nv)) else .error .pathNotFound
  | _, _ => .error .pathNotFound

/-- RFC 6902 replace; replacing the root swaps the document. -/
def doReplace : Path → Value → Value → Except PatchError Value
  | [], nv, _ => .ok nv
  | [t], nv, v => replaceLeaf t nv v
  | t :: t2 :: rest, nv, v => updChild t v (doReplace (t2 :: rest) nv)

/-- Resolve a pointer to the sub-value it denotes. -/
def getAt : Path → Value → Except PatchError Value
  | [], v => .ok v
  | .key k :: rest, .obj fs =>
    match lookupF k fs with
    | some c => getAt rest c
    | none => .error .pathNotFound
  | .idx n :: rest, .arr xs =>
    if h : n < xs.length then getAt rest (xs.get ⟨n, h⟩) else .error .pathNotFound
  | _ :: _, _ => .error .pathNotFound

/-- Apply one patch operation to a value (spec section 4.2). -/
def applyOp (v : Value) : Op → Except PatchError Value
  | .add p nv => doAdd p nv v
  | .remove p => doRemove p v
  | .replace p nv => doReplace p nv v
  | .move src dst =>
    match getAt src v with
    | .error e => .error e
    | .ok c =>
      match doRemove src v with
      | .error e => .error e
      | .ok v2 => doAdd dst c v2
  | .copy src dst =>
    match getAt src v with
    | .error e => .error e
    | .ok c => doAdd dst c v
  | .test p ev =>
    match getAt p v with
    | .error e => .error e
    | .ok c => if c = ev then .ok v else .error .testFailed

/-- Modelled from the spec: json_patch::patch, the Patch Applier,
lives in the external json_patch crate whose source is not in this
repository; this follows the contract of spec section 4.2: apply
the operations strictly in order against the evolving intermediate
value; the first failing operation aborts the whole patch, so
application is all-or-nothing by construction. -/
def applyPatch (ops : Patch) (v : Value) : Except PatchError Value :=
  match ops with
  | [] => .ok v
  | op :: rest =>
    match applyOp v op with
    | .error e => .error e
    | .ok v2 => applyPatch rest v2

instance : DecidableEq (Except PatchError Value) := fun a b =>
  match a, b with
  | .error e1, .error e2 => decidable_of_iff (e1 = e2) (by simp)
  | .ok v1, .ok v2 => decidable_of_iff (v1 = v2) (by simp)
  | .error _, .ok _ => isFalse (by simp)
  | .ok _, .error _ => isFalse (by simp)

/-- Strictly increasing key list: the shape of keys read out of a
BTreeMap. -/
def keysSortedB : List String → Bool
  | [] => true
  | [_] => true
  | k1 :: k2 :: rest => decide (k1 < k2) && keysSortedB (k2 :: rest)

mutual

/-- Canonical form of a serde_json value: every object in it has
strictly sorted member keys, as a BTreeMap-backed map always does. -/
def canon : Value → Bool
  | .null => true
  | .bool _ => true
  | .num _ => true
  | .str _ => true
  | .arr xs => canonList xs
  | .obj fs => keysSortedB (fs.map Prod.fst) && canonFields fs

/-- Canonical form for every element of a list. -/
def canonList : List Value → Bool
  | [] => true
  | x :: xs => canon x && canonList xs

/-- Canonical form for every field value of a field list. -/
def canonFields : List (String × Value) → Bool
  | [] => true
  | (_, v) :: xs => canon v && canonFields xs

end

/-- Prepend one pointer token to every path carried by an
operation: relocates an operation computed for a sub-value so that
it addresses the same spot inside the enclosing value. -/
def shiftOp (t : PTok) : Op → Op
  | .add p v => .add (t :: p) v
  | .remove p => .remove (t :: p)
  | .replace p v => .replace (t :: p) v
  | .move s d => .move (t :: s) (t :: d)
  | .copy s d => .copy (t :: s) (t :: d)
  | .test p v => .test (t :: p) v

mutual

/-- Modelled from the spec: json_patch::diff, the Diff Engine,
lives in the external json_patch crate whose source is not in this
repository; this follows the contract of spec section 4.1:
structural diff of two JSON values.  Equal values produce the
empty patch; two objects are diffed member-wise in key order with
add/remove for asymmetric keys; two arrays are diffed index-wise
with trailing add/remove; anything else is a replace at the
current position. -/
def diff (a b : Value) : Patch :=
  if a = b then []
  else
    match a, b with
    | .obj xs, .obj ys => diffFields xs ys
    | .arr xs, .arr ys => diffElems 0 xs ys
    | _, b2 => [.replace [] b2]
termination_by sizeOf a + sizeOf b
decreasing_by all_goals (simp_wf; try omega)

/-- Member-wise diff of two sorted field lists: a key only on the
left is removed, a key only on the right is added, a shared key
recurses into the two values. -/
def diffFields : List (String × Value) → List (String × Value) → Patch
  | [], [] => []
  | (k, _) :: xs, [] => .remove [.key k] :: diffFields xs []
  | [], (k, v) :: ys => .add [.key k] v :: diffFields [] ys
  | (k1, v1) :: xs, (k2, v2) :: ys =>
    if k1 = k2 then (diff v1 v2).map (shiftOp (.key k1)) ++ diffFields xs ys
    else if k1 < k2 then .remove [.key k1] :: diffFields xs ((k2, v2) :: ys)
    else .add [.key k2] v2 :: diffFields ((k1, v1) :: xs) ys
termination_by xs ys => sizeOf xs + sizeOf ys
decreasing_by all_goals (simp_wf; try omega)

/-- Index-wise diff of two element lists starting at index i:
shared positions recurse, surplus old elements are removed at the
first surplus index (repeatedly, as the remainder keeps shifting
down), surplus new elements are appended. -/
def diffElems : Nat → List Value → List Value → Patch
  | _, [], [] => []
  | i, _ :: xs, [] => .remove [.idx i] :: diffElems i xs []
  | i, [], y :: ys => .add [.idx i] y :: diffElems (i + 1) [] ys
  | i, x :: xs, y :: ys => (diff x y).map (shiftOp (.idx i)) ++ diffElems (i + 1) xs ys
termination_by _ xs ys => sizeOf xs + sizeOf ys
decreasing_by all_goals (simp_wf; try omega)

end

/-- The operation shapes the diff engine emits: add and remove
always address a strict sub-position (non-empty path), replace may
also address the root. -/
def goodOp : Op → Prop
  | .add p _ => p ≠ []
  | .remove p => p ≠ []
  | .replace _ _ => True
  | .move _ _ => False
  | .copy _ _ => False
  | .test _ _ => False

/-- Strict sortedness of a key list, as a proposition. -/
def SortedK (l : List String) : Prop :=
  List.Pairwise (fun a b : String => a < b) l

/-- The wire envelope (src/lib.rs lines 29-33): a signal name and
the json patch to apply to it. -/
structure ServerSignalUpdate where
  name : String
  patch : Patch
deriving DecidableEq, Repr

/-- ServerSignalUpdate::new_from_json (src/lib.rs lines 55-61):
build an envelope from two json values by diffing them. -/
def ServerSignalUpdate.newFromJson (name : String) (old new : Value) : ServerSignalUpdate :=
  { name := name, patch := diff old new }

/-- The log calls the client code makes, recorded as events; the
constructor `deserError` is the deserialization-error report that
spec section 4.6 step 1 calls for and is never emitted by the
handler as written. -/
inductive LogEvent where
  | msgReceived : LogEvent
  | sseData : LogEvent
  | deserError : LogEvent
  | queueWarn (name : String) : LogEvent
  | settingUpSignal (name : String) : LogEvent
  | noSseError : LogEvent
  | sseAlreadyInit : LogEvent
  | initializingSse : LogEvent
  | handlerReady : LogEvent
deriving DecidableEq, Repr

/-- Lookup in a name-keyed map (HashMap::get). -/
def alLookup {α : Type} (k : String) : List (String × α) → Option α
  | [] => none
  | (k2, v) :: rest => if k = k2 then some v else alLookup k rest

/-- Insert-or-replace in a name-keyed map (HashMap::insert). -/
def alSet {α : Type} (k : String) (v : α) : List (String × α) → List (String × α)
  | [] => [(k, v)]
  | (k2, v2) :: rest => if k = k2 then (k, v) :: rest else (k2, v2) :: alSet k v rest

/-- Remove a key from a name-keyed map (HashMap::remove drops the
entry and hands back its value, modelled by alLookup + alRemove; a
HashMap never holds a key twice, so dropping every matching entry
of the association list is the same operation). -/
def alRemove {α : Type} (k : String) : List (String × α) → List (String × α)
  | [] => []
  | (k2, v2) :: rest => if k = k2 then alRemove k rest else (k2, v2) :: alRemove k rest

/-- The client-side thread-local state (src/lib.rs lines 159-164):
the stored EventSource (an opaque identifier here), whether the
message handler was installed on it, the two signal registries
mapping a name to its cell's current json value, the pending patch
buffer, and whether the SseInitialized context marker is set. -/
structure ClientState where
  eventSource : Option Nat
  handlerInstalled : Bool
  stateSignals : List (String × Value)
  stateSignalsLocal : List (String × Value)
  delayedUpdates : List (String × List Patch)
  sseInitialized : Bool
deriving DecidableEq, Repr

/-- setup_sse_signal (src/lib.rs lines 170-196): a fresh cell is
created holding the serialized default value v0; if the
SseInitialized context is present the cell is inserted into
STATE_SIGNALS under the name (replacing any previous cell for that
name), otherwise an error is logged and nothing is registered.
The pending buffer is not touched. -/
def setupSseSignal (s : ClientState) (name : String) (v0 : Value) :
    ClientState × List LogEvent :=
  if s.sseInitialized then
    ({ s with stateSignals := alSet name v0 s.stateSignals }, [.settingUpSignal name])
  else
    (s, [.noSseError])

/-- setup_sse_signal_local (src/lib.rs lines 198-222): the same for
the LocalStorage registry STATE_SIGNALS_LOCAL. -/
def setupSseSignalLocal (s : ClientState) (name : String) (v0 : Value) :
    ClientState × List LogEvent :=
  if s.sseInitialized then
    ({ s with stateSignalsLocal := alSet name v0 s.stateSignalsLocal }, [.settingUpSignal name])
  else
    (s, [.noSseError])

/-- Apply a sequence of patches with .unwrap() after each one
(src/lib.rs lines 283-287): the first failure panics, modelled as
none. -/
def applySeqOpt : Value → List Patch → Option Value
  | v, [] => some v
  | v, p :: ps =>
    match applyPatch p v with
    | .error _ => none
    | .ok v2 => applySeqOpt v2 ps

/-- The message handler closure installed by provide_sse_inner
(src/lib.rs lines 268-337).  The payload is the result of
serde_json deserialization, abstracted to an Option: none is a
payload that failed to parse.  Behavior: a failed parse falls
through silently; otherwise the sync registry is probed first,
then the local registry; on a hit the buffered patches for the
name are removed and applied in order, then the envelope's own
patch, each with .unwrap() (panic modelled as none); on a miss in
both registries the patch is appended to the pending buffer. -/
def handleMessage (s : ClientState) (msg : Option ServerSignalUpdate) :
    Option (ClientState × List LogEvent) :=
  match msg with
  | none => some (s, [.msgReceived, .sseData])
  | some u =>
    match alLookup u.name s.stateSignals with
    | some v =>
      match applySeqOpt v ((alLookup u.name s.delayedUpdates).getD []) with
      | none => none
      | some v1 =>
        match applyPatch u.patch v1 with
        | .error _ => none
        | .ok v2 =>
          some ({ s with
                  stateSignals := alSet u.name v2 s.stateSignals,
                  delayedUpdates := alRemove u.name s.delayedUpdates },
                [.msgReceived, .sseData])
    | none =>
      match alLookup u.name s.stateSignalsLocal with
      | some v =>
        match applySeqOpt v ((alLookup u.name s.delayedUpdates).getD []) with
        | none => none
        | some v1 =>
          match applyPatch u.patch v1 with
          | .error _ => none
          | .ok v2 =>
            some ({ s with
                    stateSignalsLocal := alSet u.name v2 s.stateSignalsLocal,
                    delayedUpdates := alRemove u.name s.delayedUpdates },
                  [.msgReceived, .sseData])
      | none =>
        some ({ s with
                delayedUpdates :=
                  alSet u.name ((alLookup u.name s.delayedUpdates).getD [] ++ [u.patch])
                    s.delayedUpdates },
              [.msgReceived, .sseData, .queueWarn u.name])

/-- provide_sse_inner (src/lib.rs lines 225-353): when the
SseInitialized context is present, log and return Ok without
touching anything; otherwise create the EventSource (esNew is the
fresh browser object, esOk whether its construction succeeded —
on failure the error propagates out), store it, install the
message handler, and provide the context marker.  The returned
Bool is whether the result was Ok. -/
def provideSseInner (s : ClientState) (esNew : Nat) (esOk : Bool) :
    ClientState × List LogEvent × Bool :=
  if s.sseInitialized then
    (s, [.sseAlreadyInit], true)
  else if !esOk then
    (s, [.initializingSse], false)
  else
    ({ s with
        eventSource := some esNew,
        handlerInstalled := true,
        sseInitialized := true },
      [.initializingSse, .handlerReady], true)

/-- Dispatch a list of inbound messages in order, stopping (none)
if the handler panics on one of them. -/
def dispatchAll (s : ClientState) : List (Option ServerSignalUpdate) → Option ClientState
  | [] => some s
  | m :: ms =>
    match handleMessage s m with
    | none => none
    | some (s2, _) => dispatchAll s2 ms

/-- The json value with a single member value holding 0, the
serialized default of the Count example type. -/
def vz : Value := .obj [("value", .num 0)]

/-- The json value with value holding 1. -/
def vOne : Value := .obj [("value", .num 1)]

/-- The json value with value holding 2. -/
def vTwo : Value := .obj [("value", .num 2)]

/-- The json value with value holding 3. -/
def vThree : Value := .obj [("value", .num 3)]

/-- The json value with value holding 5. -/
def vFive : Value := .obj [("value", .num 5)]

/-- The patch the server emits for value 0 to 1. -/
def p01 : Patch := [.replace [.key "value"] (.num 1)]

/-- The patch the server emits for value 1 to 2. -/
def p12 : Patch := [.replace [.key "value"] (.num 2)]

/-- The patch the server emits for value 2 to 3. -/
def p23 : Patch := [.replace [.key "value"] (.num 3)]

/-- A patch whose pointer does not resolve in vz. -/
def pBad : Patch := [.replace [.key "nope"] (.num 1)]

/-- The client state before provide_sse ran: nothing stored. -/
def sNone : ClientState := ⟨none, false, [], [], [], false⟩

/-- A freshly initialized client state: EventSource stored, handler
installed, context marker set, registries and buffer empty. -/
def sInit : ClientState := ⟨some 0, true, [], [], [], true⟩

/-- Initialized state with two patches buffered for counter before
any registration (spec concrete scenario 2). -/
def sBuf : ClientState := ⟨some 0, true, [], [], [("counter", [p01, p12])], true⟩

/-- Initialized state with the signal x registered at vz. -/
def sReg : ClientState := ⟨some 0, true, [("x", vz)], [], [], true⟩

/-- Initialized state with x registered at vz and one patch
buffered for x. -/
def sRegBuf : ClientState := ⟨some 0, true, [("x", vz)], [], [("x", [p01])], true⟩

/-- Initialized state with x registered at vFive (a cell that has
already advanced past its default). -/
def sRegFive : ClientState := ⟨some 0, true, [("x", vFive)], [], [], true⟩

/-- Initialized state with x registered in both registries. -/
def sBoth : ClientState := ⟨some 0, true, [("x", vz)], [("x", vz)], [], true⟩

/-- The state sReg after dispatching the 0-to-1 patch for x. -/
def sRegAfter : ClientState := ⟨some 0, true, [("x", vOne)], [], [], true⟩

/-- The state sBoth after dispatching the 0-to-1 patch for x: only
the sync registry cell advanced. -/
def sBothAfter : ClientState := ⟨some 0, true, [("x", vOne)], [("x", vz)], [], true⟩

theorem goodOp_shiftOp (t : PTok) (op : Op) (h : goodOp op) : goodOp (shiftOp t op) := by
  cases op <;> simp_all [goodOp, shiftOp]

mutual

theorem diff_good : ∀ a b : Value, ∀ op ∈ diff a b, goodOp op := by
  intro a b op hop
  rw [diff.eq_def] at hop
  split at hop
  · simp at hop
  · split at hop
    · exact diffFields_good _ _ op hop
    · exact diffElems_good _ _ _ op hop
    · simp at hop
      subst hop
      trivial
termination_by a b => sizeOf a + sizeOf b
decreasing_by all_goals (subst_vars; simp_wf; try omega)

theorem diffFields_good :
    ∀ xs ys : List (String × Value), ∀ op ∈ diffFields xs ys, goodOp op
  | [], [] => by simp [diffFields]
  | (k, v) :: xs, [] => by
    intro op hop
    simp only [diffFields] at hop
    rcases List.mem_cons.mp hop with h | h
    · subst h; simp [goodOp]
    · exact diffFields_good xs [] op h
  | [], (k, v) :: ys => by
    intro op hop
    simp only [diffFields] at hop
    rcases List.mem_cons.mp hop with h | h
    · subst h; simp [goodOp]
    · exact diffFields_good [] ys op h
  | (k1, v1) :: xs, (k2, v2) :: ys => by
    intro op hop
    simp only [diffFields] at hop
    split at hop
    · rcases List.mem_append.mp hop with h | h
      · rcases List.mem_map.mp h with ⟨o, ho, rfl⟩
        exact goodOp_shiftOp _ o (diff_good v1 v2 o ho)
      · exact diffFields_good xs ys op h
    · split at hop
      · rcases List.mem_cons.mp hop with h | h
        · subst h; simp [goodOp]
        · exact diffFields_good xs ((k2, v2) :: ys) op h
      · rcases List.mem_cons.mp hop with h | h
        · subst h; simp [goodOp]
        · exact diffFields_good ((k1, v1) :: xs) ys op h
termination_by xs ys => sizeOf xs + sizeOf ys
decreasing_by all_goals (simp_wf; try omega)

theorem diffElems_good :
    ∀ (i : Nat) (xs ys : List Value), ∀ op ∈ diffElems i xs ys, goodOp op
  | _, [], [] => by simp [diffElems]
  | i, _ :: xs, [] => by
    intro op hop
    simp only [diffElems] at hop
    rcases List.mem_cons.mp hop with h | h
    · subst h; simp [goodOp]
    · exact diffElems_good i xs [] op h
  | i, [], y :: ys => by
    intro op hop
    simp only [diffElems] at hop
    rcases List.mem_cons.mp hop with h | h
    · subst h; simp [goodOp]
    · exact diffElems_good (i + 1) [] ys op h
  | i, x :: xs, y :: ys => by
    intro op hop
    simp only [diffElems] at hop
    rcases List.mem_append.mp hop with h | h
    · rcases List.mem_map.mp h with ⟨o, ho, rfl⟩
      exact goodOp_shiftOp _ o (diff_good x y o ho)
    · exact diffElems_good (i + 1) xs ys op h
termination_by _ xs ys => sizeOf xs + sizeOf ys
decreasing_by all_goals (simp_wf; try omega)

end

theorem keysSortedB_iff_chain :
    ∀ l : List String, keysSortedB l = true ↔ List.Chain' (fun a b : String => a < b) l
  | [] => by simp [keysSortedB]
  | [k] => by simp [keysSortedB]
  | k1 :: k2 :: rest => by
    simp [keysSortedB, keysSortedB_iff_chain (k2 :: rest), List.chain'_cons]

theorem keysSortedB_iff (l : List String) : keysSortedB l = true ↔ SortedK l := by
  rw [keysSortedB_iff_chain, SortedK, List.chain'_iff_pairwise]

theorem sortedK_mid_lt {P X : List String} {k : String} (h : SortedK (P ++ k :: X)) :
    ∀ a ∈ P, a < k := by
  rw [SortedK, List.pairwise_append] at h
  intro a ha
  exact h.2.2 a ha k (by simp)

theorem sortedK_mid_gt {P X : List String} {k : String} (h : SortedK (P ++ k :: X)) :
    ∀ b ∈ X, k < b := by
  rw [SortedK, List.pairwise_append] at h
  exact (List.pairwise_cons.mp h.2.1).1

theorem sortedK_drop_mid {P X : List String} {k : String} (h : SortedK (P ++ k :: X)) :
    SortedK (P ++ X) := by
  rw [SortedK, List.pairwise_append] at h ⊢
  refine ⟨h.1, (List.pairwise_cons.mp h.2.1).2, ?_⟩
  intro a ha b hb
  exact h.2.2 a ha b (by simp [hb])

theorem sortedK_insert_mid {P X : List String} {k1 k2 : String}
    (h : SortedK (P ++ k1 :: X)) (hP : ∀ a ∈ P, a < k2) (hk : k2 < k1) :
    SortedK (P ++ k2 :: k1 :: X) := by
  rw [SortedK, List.pairwise_append] at h ⊢
  have hX : ∀ b ∈ X, k1 < b := (List.pairwise_cons.mp h.2.1).1
  refine ⟨h.1, ?_, ?_⟩
  · rw [List.pairwise_cons]
    refine ⟨?_, h.2.1⟩
    intro b hb
    rcases List.mem_cons.mp hb with hb | hb
    · exact hb ▸ hk
    · exact lt_trans hk (hX b hb)
  · intro a ha b hb
    rcases List.mem_cons.mp hb with hb | hb
    · exact hb ▸ hP a ha
    · exact h.2.2 a ha b hb

theorem hasKey_of_lookupF {k : String} {c : Value} :
    ∀ {fs : List (String × Value)}, lookupF k fs = some c → hasKey k fs = true := by
  intro fs
  induction fs with
  | nil => simp [lookupF]
  | cons p rest ih =>
    obtain ⟨k2, v2⟩ := p
    simp only [lookupF, hasKey]
    split
    · simp
    · exact ih

theorem lookupF_objSet {k : String} {v : Value} :
    ∀ {fs : List (String × Value)} {c : Value},
      lookupF k fs = some c → lookupF k (objSet k v fs) = some v := by
  intro fs
  induction fs with
  | nil => simp [lookupF]
  | cons p rest ih =>
    obtain ⟨k2, v2⟩ := p
    intro c
    simp only [lookupF, objSet]
    split
    · intro _
      simp [lookupF]
    · intro h
      simp only [lookupF, *, if_neg]
      exact ih h

theorem objSet_objSet {k : String} {v1 v2 : Value} :
    ∀ fs : List (String × Value), objSet k v2 (objSet k v1 fs) = objSet k v2 fs := by
  intro fs
  induction fs with
  | nil => simp [objSet]
  | cons p rest ih =>
    obtain ⟨k2, v⟩ := p
    by_cases hk : k = k2
    · subst hk
      simp [objSet]
    · simp [objSet, if_neg hk, ih]

theorem objSet_self {k : String} :
    ∀ {fs : List (String × Value)} {c : Value}, lookupF k fs = some c → objSet k c fs = fs := by
  intro fs
  induction fs with
  | nil => simp [objSet]
  | cons p rest ih =>
    obtain ⟨k2, v2⟩ := p
    intro c
    simp only [lookupF, objSet]
    split
    · rename_i hk
      intro hc
      simp at hc
      simp [hk, hc]
    · intro h
      simp [ih h]

theorem lookupF_append_right {k : String} {pre L : List (String × Value)}
    (h : ∀ p ∈ pre, p.1 ≠ k) : lookupF k (pre ++ L) = lookupF k L := by
  induction pre with
  | nil => simp
  | cons p rest ih =>
    obtain ⟨k2, v2⟩ := p
    have hne : k ≠ k2 := fun hk => (h (k2, v2) (by simp)) hk.symm
    simp only [List.cons_append, lookupF, if_neg hne]
    exact ih (fun q hq => h q (by simp [hq]))

theorem objSet_append {k : String} {v : Value} {pre L : List (String × Value)}
    (h : ∀ p ∈ pre, p.1 ≠ k) : objSet k v (pre ++ L) = pre ++ objSet k v L := by
  induction pre with
  | nil => simp
  | cons p rest ih =>
    obtain ⟨k2, v2⟩ := p
    have hne : k ≠ k2 := fun hk => (h (k2, v2) (by simp)) hk.symm
    have ih2 := ih (fun q hq => h q (by simp [hq]))
    simp [objSet, if_neg hne, ih2]

theorem objRemove_append {k : String} {pre L : List (String × Value)}
    (h : ∀ p ∈ pre, p.1 ≠ k) : objRemove k (pre ++ L) = pre ++ objRemove k L := by
  induction pre with
  | nil => simp
  | cons p rest ih =>
    obtain ⟨k2, v2⟩ := p
    have hne : k ≠ k2 := fun hk => (h (k2, v2) (by simp)) hk.symm
    have ih2 := ih (fun q hq => h q (by simp [hq]))
    simp [objRemove, if_neg hne, ih2]

theorem objInsert_append_gt {k : String} {v : Value} {pre L : List (String × Value)}
    (h : ∀ p ∈ pre, p.1 < k) : objInsert k v (pre ++ L) = pre ++ objInsert k v L := by
  induction pre with
  | nil => simp
  | cons p rest ih =>
    obtain ⟨k2, v2⟩ := p
    have hlt : k2 < k := h (k2, v2) (by simp)
    have h1 : ¬k < k2 := not_lt_of_gt hlt
    have h2 : k ≠ k2 := (ne_of_gt hlt)
    have ih2 := ih (fun q hq => h q (by simp [hq]))
    simp only [List.cons_append, objInsert]
    rw [if_neg h1, if_neg h2]
    exact congrArg (fun t => (k2, v2) :: t) ih2

theorem objInsert_cons_of_lt {k k2 : String} {v w : Value} {L : List (String × Value)}
    (h : k < k2) : objInsert k v ((k2, w) :: L) = (k, v) :: (k2, w) :: L := by
  simp only [objInsert]
  rw [if_pos h]

theorem applyPatch_append_ok {l1 : Patch} {v v1 : Value} (h : applyPatch l1 v = .ok v1)
    (l2 : Patch) : applyPatch (l1 ++ l2) v = applyPatch l2 v1 := by
  induction l1 generalizing v with
  | nil =>
    simp [applyPatch] at h
    simp [h]
  | cons op rest ih =>
    simp only [applyPatch, List.cons_append] at h ⊢
    split at h
    · simp at h
    · exact ih h

theorem applyOp_shift_key {k : String} {fs : List (String × Value)} {c : Value}
    (hl : lookupF k fs = some c) {op : Op} (hg : goodOp op) :
    applyOp (.obj fs) (shiftOp (.key k) op)
      = emap (fun c2 => .obj (objSet k c2 fs)) (applyOp c op) := by
  cases op with
  | add p nv =>
    cases p with
    | nil => exact absurd rfl hg
    | cons t2 rest =>
      simp [shiftOp, applyOp, doAdd, updChild, hl]
  | remove p =>
    cases p with
    | nil => exact absurd rfl hg
    | cons t2 rest =>
      simp [shiftOp, applyOp, doRemove, updChild, hl]
  | replace p nv =>
    cases p with
    | nil =>
      simp [shiftOp, applyOp, doReplace, replaceLeaf, hasKey_of_lookupF hl, emap]
    | cons t2 rest =>
      simp [shiftOp, applyOp, doReplace, updChild, hl]
  | move s d => exact absurd hg (by simp [goodOp])
  | copy s d => exact absurd hg (by simp [goodOp])
  | test p ev => exact absurd hg (by simp [goodOp])

theorem length_lt_mid (pre suf : List Value) (c : Value) :
    pre.length < (pre ++ c :: suf).length := by
  simp

theorem get_mid : ∀ (pre : List Value) (c : Value) (suf : List Value)
    (h : pre.length < (pre ++ c :: suf).length), (pre ++ c :: suf).get ⟨pre.length, h⟩ = c
  | [], _, _, _ => rfl
  | _ :: pre, c, suf, _ => get_mid pre c suf (length_lt_mid pre suf c)

theorem set_mid : ∀ (pre : List Value) (c c2 : Value) (suf : List Value),
    (pre ++ c :: suf).set pre.length c2 = pre ++ c2 :: suf
  | [], _, _, _ => rfl
  | x :: pre, c, c2, suf => congrArg (fun t => x :: t) (set_mid pre c c2 suf)

theorem applyOp_shift_idx {pre suf : List Value} {c : Value} {op : Op} (hg : goodOp op) :
    applyOp (.arr (pre ++ c :: suf)) (shiftOp (.idx pre.length) op)
      = emap (fun c2 => .arr (pre ++ c2 :: suf)) (applyOp c op) := by
  have hlen := length_lt_mid pre suf c
  have hget := get_mid pre c suf hlen
  have hfun : (fun c2 => Value.arr ((pre ++ c :: suf).set pre.length c2))
      = fun c2 => Value.arr (pre ++ c2 :: suf) := funext (fun c2 => by rw [set_mid])
  cases op with
  | add p nv =>
    cases p with
    | nil => exact absurd rfl hg
    | cons t2 rest =>
      simp only [shiftOp, applyOp, doAdd, updChild]
      rw [dif_pos hlen, hget, hfun]
  | remove p =>
    cases p with
    | nil => exact absurd rfl hg
    | cons t2 rest =>
      simp only [shiftOp, applyOp, doRemove, updChild]
      rw [dif_pos hlen, hget, hfun]
  | replace p nv =>
    cases p with
    | nil =>
      simp only [shiftOp, applyOp, doReplace, replaceLeaf]
      rw [if_pos hlen, set_mid]
      simp [emap]
    | cons t2 rest =>
      simp only [shiftOp, applyOp, doReplace, updChild]
      rw [dif_pos hlen, hget, hfun]
  | move s d => exact absurd hg (by simp [goodOp])
  | copy s d => exact absurd hg (by simp [goodOp])
  | test p ev => exact absurd hg (by simp [goodOp])

theorem applyPatch_shift_key {k : String} :
    ∀ {l : Patch} {fs : List (String × Value)} {c : Value},
      (∀ op ∈ l, goodOp op) → lookupF k fs = some c →
      applyPatch (l.map (shiftOp (.key k))) (.obj fs)
        = emap (fun c2 => .obj (objSet k c2 fs)) (applyPatch l c) := by
  intro l
  induction l with
  | nil =>
    intro fs c _ hl
    simp [applyPatch, emap, objSet_self hl]
  | cons op rest ih =>
    intro fs c hg hl
    have hop : goodOp op := hg op (by simp)
    have hrest : ∀ o ∈ rest, goodOp o := fun o ho => hg o (by simp [ho])
    simp only [List.map_cons, applyPatch, applyOp_shift_key hl hop]
    cases hac : applyOp c op with
    | error e => simp [emap]
    | ok c2 =>
      simp only [emap]
      rw [ih hrest (lookupF_objSet hl)]
      have hfun : (fun c3 => Value.obj (objSet k c3 (objSet k c2 fs)))
          = fun c3 => Value.obj (objSet k c3 fs) :=
        funext (fun c3 => by rw [objSet_objSet])
      rw [hfun]
      cases applyPatch rest c2 <;> simp [emap]

theorem applyPatch_shift_idx {pre suf : List Value} :
    ∀ {l : Patch} {c : Value},
      (∀ op ∈ l, goodOp op) →
      applyPatch (l.map (shiftOp (.idx pre.length))) (.arr (pre ++ c :: suf))
        = emap (fun c2 => .arr (pre ++ c2 :: suf)) (applyPatch l c) := by
  intro l
  induction l with
  | nil =>
    intro c _
    simp [applyPatch, emap]
  | cons op rest ih =>
    intro c hg
    have hop : goodOp op := hg op (by simp)
    have hrest : ∀ o ∈ rest, goodOp o := fun o ho => hg o (by simp [ho])
    simp only [List.map_cons, applyPatch, applyOp_shift_idx hop]
    cases hac : applyOp c op with
    | error e => simp [emap]
    | ok c2 =>
      simp only [emap]
      rw [ih hrest]
      cases applyPatch rest c2 <;> simp [emap]

theorem sortedK_take_mid {P X : List String} {k : String} (h : SortedK (P ++ k :: X)) :
    SortedK (P ++ [k]) := by
  rw [SortedK, List.pairwise_append] at h ⊢
  refine ⟨h.1, List.pairwise_singleton _ _, ?_⟩
  intro a ha b hb
  rcases List.mem_singleton.mp hb with rfl
  exact h.2.2 a ha b (by simp)

theorem fst_lt_of_append_sorted {pre rest : List (String × Value)} {k : String} {v : Value}
    (h : SortedK ((pre ++ (k, v) :: rest).map Prod.fst)) : ∀ p ∈ pre, p.1 < k := by
  simp only [List.map_append, List.map_cons] at h
  intro p hp
  exact sortedK_mid_lt h p.1 (List.mem_map_of_mem Prod.fst hp)

theorem fst_ne_of_append_sorted {pre rest : List (String × Value)} {k : String} {v : Value}
    (h : SortedK ((pre ++ (k, v) :: rest).map Prod.fst)) : ∀ p ∈ pre, p.1 ≠ k :=
  fun p hp => ne_of_lt (fst_lt_of_append_sorted h p hp)

theorem sorted_drop_of_append {pre rest : List (String × Value)} {k : String} {v : Value}
    (h : SortedK ((pre ++ (k, v) :: rest).map Prod.fst)) :
    SortedK ((pre ++ rest).map Prod.fst) := by
  simp only [List.map_append, List.map_cons] at h ⊢
  exact sortedK_drop_mid h

theorem erase_mid : ∀ (pre : List Value) (x : Value) (xs : List Value),
    (pre ++ x :: xs).eraseIdx pre.length = pre ++ xs
  | [], _, _ => rfl
  | p :: pre, x, xs => congrArg (fun t => p :: t) (erase_mid pre x xs)

mutual

theorem diff_applyPatch : ∀ a b : Value, canon a = true → canon b = true →
    applyPatch (diff a b) a = .ok b := by
  intro a b ha hb
  rw [diff.eq_def]
  split
  · rename_i heq
    subst heq
    simp [applyPatch]
  · split
    · simp only [canon, Bool.and_eq_true] at ha hb
      have h := diffFields_applyPatch [] _ _
        (by simpa using (keysSortedB_iff _).mp ha.1)
        (by simpa using (keysSortedB_iff _).mp hb.1) ha.2 hb.2
      simpa using h
    · simp only [canon] at ha hb
      have h := diffElems_applyPatch [] _ _ ha hb
      simpa using h
    · simp [applyPatch, applyOp, doReplace]
termination_by a b => sizeOf a + sizeOf b
decreasing_by all_goals (subst_vars; simp_wf; try omega)

theorem diffFields_applyPatch : ∀ (pre xs ys : List (String × Value)),
    SortedK ((pre ++ xs).map Prod.fst) → SortedK ((pre ++ ys).map Prod.fst) →
    canonFields xs = true → canonFields ys = true →
    applyPatch (diffFields xs ys) (.obj (pre ++ xs)) = .ok (.obj (pre ++ ys))
  | _, [], [], _, _, _, _ => by simp [diffFields, applyPatch]
  | pre, (k, v) :: xs, [], h1, h2, hcx, hcy => by
    have hne : ∀ p ∈ pre, p.1 ≠ k := fst_ne_of_append_sorted h1
    have hlk : lookupF k (pre ++ (k, v) :: xs) = some v := by
      rw [lookupF_append_right hne]
      simp [lookupF]
    have hrm : objRemove k (pre ++ (k, v) :: xs) = pre ++ xs := by
      rw [objRemove_append hne]
      simp [objRemove]
    have happ : applyOp (.obj (pre ++ (k, v) :: xs)) (.remove [.key k])
        = .ok (.obj (pre ++ xs)) := by
      simp only [applyOp, doRemove, removeLeaf, hasKey_of_lookupF hlk, if_true, hrm]
    simp only [diffFields, applyPatch, happ]
    have hcx2 : canonFields xs = true := by
      simp only [canonFields, Bool.and_eq_true] at hcx
      exact hcx.2
    exact diffFields_applyPatch pre xs [] (sorted_drop_of_append h1) h2 hcx2 hcy
  | pre, [], (k, v) :: ys, h1, h2, hcx, hcy => by
    have hlt : ∀ p ∈ pre, p.1 < k := fst_lt_of_append_sorted h2
    have hins : objInsert k v (pre ++ []) = pre ++ [(k, v)] := by
      rw [objInsert_append_gt hlt]
      simp [objInsert]
    have happ : applyOp (.obj (pre ++ [])) (.add [.key k] v)
        = .ok (.obj (pre ++ [(k, v)])) := by
      simp only [applyOp, doAdd, addLeaf, hins]
    simp only [diffFields, applyPatch, happ]
    have hcy2 : canonFields ys = true := by
      simp only [canonFields, Bool.and_eq_true] at hcy
      exact hcy.2
    have hs1 : SortedK (((pre ++ [(k, v)]) ++ []).map Prod.fst) := by
      have h2n : SortedK (pre.map Prod.fst ++ k :: ys.map Prod.fst) := by
        simpa using h2
      simpa using sortedK_take_mid h2n
    have hs2 : SortedK (((pre ++ [(k, v)]) ++ ys).map Prod.fst) := by
      simpa using h2
    have hrec := diffFields_applyPatch (pre ++ [(k, v)]) [] ys hs1 hs2 rfl hcy2
    simpa using hrec
  | pre, (k1, v1) :: xs, (k2, v2) :: ys, h1, h2, hcx, hcy => by
    simp only [canonFields, Bool.and_eq_true] at hcx hcy
    rcases eq_or_ne k1 k2 with heq | hne12
    · subst heq
      simp only [diffFields, if_true]
      have hneq : ∀ p ∈ pre, p.1 ≠ k1 := fst_ne_of_append_sorted h1
      have hlk : lookupF k1 (pre ++ (k1, v1) :: xs) = some v1 := by
        rw [lookupF_append_right hneq]
        simp [lookupF]
      have hseg1 : applyPatch ((diff v1 v2).map (shiftOp (.key k1)))
          (.obj (pre ++ (k1, v1) :: xs)) = .ok (.obj (pre ++ (k1, v2) :: xs)) := by
        rw [applyPatch_shift_key (diff_good v1 v2) hlk,
          diff_applyPatch v1 v2 hcx.1 hcy.1]
        simp only [emap]
        rw [objSet_append hneq]
        simp [objSet]
      rw [applyPatch_append_ok hseg1]
      have hs1 : SortedK (((pre ++ [(k1, v2)]) ++ xs).map Prod.fst) := by
        simpa using h1
      have hs2 : SortedK (((pre ++ [(k1, v2)]) ++ ys).map Prod.fst) := by
        simpa using h2
      have hrec := diffFields_applyPatch (pre ++ [(k1, v2)]) xs ys hs1 hs2 hcx.2 hcy.2
      simpa using hrec
    · simp only [diffFields]
      rw [if_neg hne12]
      by_cases hlt : k1 < k2
      · rw [if_pos hlt]
        have hneq : ∀ p ∈ pre, p.1 ≠ k1 := fst_ne_of_append_sorted h1
        have hlk : lookupF k1 (pre ++ (k1, v1) :: xs) = some v1 := by
          rw [lookupF_append_right hneq]
          simp [lookupF]
        have hrm : objRemove k1 (pre ++ (k1, v1) :: xs) = pre ++ xs := by
          rw [objRemove_append hneq]
          simp [objRemove]
        have happ : applyOp (.obj (pre ++ (k1, v1) :: xs)) (.remove [.key k1])
            = .ok (.obj (pre ++ xs)) := by
          simp only [applyOp, doRemove, removeLeaf, hasKey_of_lookupF hlk, if_true, hrm]
        simp only [applyPatch, happ]
        exact diffFields_applyPatch pre xs ((k2, v2) :: ys) (sorted_drop_of_append h1) h2
          hcx.2 (by simp [canonFields, hcy.1, hcy.2])
      · rw [if_neg hlt]
        have hk21 : k2 < k1 := lt_of_le_of_ne (le_of_not_lt hlt) (Ne.symm hne12)
        have hltpre : ∀ p ∈ pre, p.1 < k2 := fst_lt_of_append_sorted h2
        have hins : objInsert k2 v2 (pre ++ (k1, v1) :: xs)
            = pre ++ (k2, v2) :: (k1, v1) :: xs := by
          rw [objInsert_append_gt hltpre, objInsert_cons_of_lt hk21]
        have happ : applyOp (.obj (pre ++ (k1, v1) :: xs)) (.add [.key k2] v2)
            = .ok (.obj (pre ++ (k2, v2) :: (k1, v1) :: xs)) := by
          simp only [applyOp, doAdd, addLeaf, hins]
        simp only [applyPatch, happ]
        have hs1 : SortedK (((pre ++ [(k2, v2)]) ++ (k1, v1) :: xs).map Prod.fst) := by
          have h1n : SortedK (pre.map Prod.fst ++ k1 :: xs.map Prod.fst) := by
            simpa using h1
          have hP : ∀ a ∈ pre.map Prod.fst, a < k2 := by
            intro a ha
            rcases List.mem_map.mp ha with ⟨p, hp, rfl⟩
            exact hltpre p hp
          simpa using sortedK_insert_mid h1n hP hk21
        have hs2 : SortedK (((pre ++ [(k2, v2)]) ++ ys).map Prod.fst) := by
          simpa using h2
        have hrec := diffFields_applyPatch (pre ++ [(k2, v2)]) ((k1, v1) :: xs) ys hs1 hs2
          (by simp [canonFields, hcx.1, hcx.2]) hcy.2
        simpa using hrec
termination_by _ xs ys => sizeOf xs + sizeOf ys
decreasing_by all_goals (subst_vars; simp_wf; try omega)

theorem diffElems_applyPatch : ∀ (pre xs ys : List Value),
    canonList xs = true → canonList ys = true →
    applyPatch (diffElems pre.length xs ys) (.arr (pre ++ xs)) = .ok (.arr (pre ++ ys))
  | _, [], [], _, _ => by simp [diffElems, applyPatch]
  | pre, x :: xs, [], hcx, hcy => by
    simp only [canonList, Bool.and_eq_true] at hcx
    have hlen := length_lt_mid pre xs x
    have happ : applyOp (.arr (pre ++ x :: xs)) (.remove [.idx pre.length])
        = .ok (.arr (pre ++ xs)) := by
      simp only [applyOp, doRemove, removeLeaf]
      rw [if_pos hlen, erase_mid]
    simp only [diffElems, applyPatch, happ]
    exact diffElems_applyPatch pre xs [] hcx.2 hcy
  | pre, [], y :: ys, hcx, hcy => by
    simp only [canonList, Bool.and_eq_true] at hcy
    have happ : applyOp (.arr (pre ++ [])) (.add [.idx pre.length] y)
        = .ok (.arr (pre ++ [y])) := by
      simp only [applyOp, doAdd, addLeaf]
      rw [if_pos (by simp)]
      simp [List.insertIdx_length_self]
    simp only [diffElems, applyPatch, happ]
    have hrec := diffElems_applyPatch (pre ++ [y]) [] ys rfl hcy.2
    simpa using hrec
  | pre, x :: xs, y :: ys, hcx, hcy => by
    simp only [canonList, Bool.and_eq_true] at hcx hcy
    have hseg : applyPatch ((diff x y).map (shiftOp (.idx pre.length)))
        (.arr (pre ++ x :: xs)) = .ok (.arr (pre ++ y :: xs)) := by
      rw [applyPatch_shift_idx (diff_good x y), diff_applyPatch x y hcx.1 hcy.1]
      simp [emap]
    simp only [diffElems]
    rw [applyPatch_append_ok hseg]
    have hrec := diffElems_applyPatch (pre ++ [y]) xs ys hcx.2 hcy.2
    simpa using hrec
termination_by _ xs ys => sizeOf xs + sizeOf ys
decreasing_by all_goals (simp_wf; try omega)

end

theorem alLookup_alSet_self {α : Type} (k : String) (v : α) :
    ∀ m : List (String × α), alLookup k (alSet k v m) = some v := by
  intro m
  induction m with
  | nil => simp [alSet, alLookup]
  | cons p rest ih =>
    obtain ⟨k2, v2⟩ := p
    by_cases hk : k = k2
    · simp [alSet, alLookup, hk]
    · simp [alSet, alLookup, hk, ih]

theorem alLookup_alSet_ne {α : Type} {k b : String} (hne : b ≠ k) (v : α) :
    ∀ m : List (String × α), alLookup b (alSet k v m) = alLookup b m := by
  intro m
  induction m with
  | nil => simp [alSet, alLookup, hne]
  | cons p rest ih =>
    obtain ⟨k2, v2⟩ := p
    by_cases hk : k = k2
    · subst hk
      simp [alSet, alLookup, hne, if_neg hne]
    · by_cases hb : b = k2
      · simp [alSet, alLookup, hk, hb]
      · simp [alSet, alLookup, hk, hb, ih]

theorem alLookup_alRemove_ne {α : Type} {k b : String} (hne : b ≠ k) :
    ∀ m : List (String × α), alLookup b (alRemove k m) = alLookup b m := by
  intro m
  induction m with
  | nil => simp [alRemove, alLookup]
  | cons p rest ih =>
    obtain ⟨k2, v2⟩ := p
    by_cases hk : k = k2
    · subst hk
      simp [alRemove, alLookup, if_neg hne, ih]
    · by_cases hb : b = k2
      · simp [alRemove, alLookup, hk, hb]
      · simp [alRemove, alLookup, hk, hb, ih]

theorem alLookup_alRemove_self {α : Type} (k : String) :
    ∀ m : List (String × α), alLookup k (alRemove k m) = none := by
  intro m
  induction m with
  | nil => simp [alRemove, alLookup]
  | cons p rest ih =>
    obtain ⟨k2, v2⟩ := p
    by_cases hk : k = k2
    · subst hk
      simp [alRemove, ih]
    · simp [alRemove, alLookup, hk, ih]

theorem applySeqOpt_append_one :
    ∀ {ps : List Patch} {v v2 : Value} {p : Patch},
      applySeqOpt v (ps ++ [p]) = some v2 →
      ∃ v1, applySeqOpt v ps = some v1 ∧ applyPatch p v1 = .ok v2 := by
  intro ps
  induction ps with
  | nil =>
    intro v v2 p h
    simp only [List.nil_append, applySeqOpt] at h
    refine ⟨v, rfl, ?_⟩
    cases heq : applyPatch p v with
    | error e =>
      rw [heq] at h
      simp at h
    | ok v3 =>
      rw [heq] at h
      simp [applySeqOpt] at h
      subst h
      rfl
  | cons q rest ih =>
    intro v v2 p h
    simp only [List.cons_append, applySeqOpt] at h ⊢
    split at h
    · simp at h
    · exact ih h


/-- Claim C1: for all JSON-shaped values a and b (in the canonical
sorted-map form every serde_json value has), applying the patch
produced by the Diff Engine (ServerSignalUpdate::new_from_json /
json_patch::diff on a and b) to a succeeds and yields exactly b. -/
theorem C1_diff_apply_roundtrip (name : String) (a b : Value)
    (ha : canon a = true) (hb : canon b = true) :
    applyPatch (ServerSignalUpdate.newFromJson name a b).patch a = .ok b := by
  simpa [ServerSignalUpdate.newFromJson] using diff_applyPatch a b ha hb

theorem C1_witness :
    canon vz = true ∧ canon vOne = true ∧
    applyPatch (ServerSignalUpdate.newFromJson "counter" vz vOne).patch vz = .ok vOne :=
  ⟨by decide, by decide, C1_diff_apply_roundtrip "counter" vz vOne (by decide) (by decide)⟩

/-- Claim C5 (code bug evaluated at the failing input): with signal
x registered at vz, an envelope whose patch does not apply (pointer
nope does not resolve) makes the message handler panic: the
json_patch::patch result is unwrapped (src/lib.rs line 293), which
aborts the handler instead of reporting the failure and
continuing, contradicting spec sections 7 and 9. -/
theorem C5_panic_on_patch_failure :
    handleMessage sReg (some ⟨"x", pBad⟩) = none := by decide

/-- Claim C6 (amended): a payload that fails to deserialize is
dropped silently: the state is unchanged (no cell and no buffer
entry is mutated, so the next valid envelope is processed exactly
as if the malformed one had never arrived), and the only log calls
made are the unconditional receipt logs - no deserialization-error
report is emitted (the if-let at src/lib.rs line 272 has no else
branch). -/
theorem C6_amended_malformed_dropped_silently (s : ClientState) :
    handleMessage s none = some (s, [.msgReceived, .sseData]) := rfl

/-- Claim C6 counterexample: at a concrete initialized state, the
malformed payload is dropped with state unchanged, and the logs
emitted contain no deserialization-error report, refuting the
claim that the Dispatcher reports a deserialization error. -/
theorem C6_counterexample :
    handleMessage sInit none = some (sInit, [.msgReceived, .sseData]) ∧
    LogEvent.deserError ∉ [LogEvent.msgReceived, LogEvent.sseData] := by decide

/-- Claim C7: connection initialization is idempotent: when the
SseInitialized context is already present, provide_sse_inner
returns Ok immediately, logs that SSE is already initialized, and
leaves the whole state (stored EventSource, installed handler,
registries, buffer) unchanged - no second stream is opened. -/
theorem C7_provide_sse_idempotent (s : ClientState) (esNew : Nat) (esOk : Bool)
    (hInit : s.sseInitialized = true) :
    provideSseInner s esNew esOk = (s, [.sseAlreadyInit], true) := by
  simp [provideSseInner, hInit]

theorem C7_witness :
    sInit.sseInitialized = true ∧
    provideSseInner sInit 7 false = (sInit, [.sseAlreadyInit], true) :=
  ⟨by decide, C7_provide_sse_idempotent sInit 7 false (by decide)⟩


/-- Claim C2 counterexample: with the two scenario-2 patches
buffered for counter, registering counter with default vz leaves
the cell at vz immediately after registration, although applying
the buffered patches would give vTwo, and vz is not vTwo - so the
buffer is NOT drained into the cell at registration time. -/
theorem C2_counterexample :
    alLookup "counter" ((setupSseSignal sBuf "counter" vz).1.stateSignals) = some vz ∧
    applySeqOpt vz [p01, p12] = some vTwo ∧
    vz ≠ vTwo := by decide

/-- Claim C2 (amended): registration does not drain the pending
buffer; the buffered patches stay queued and are applied, in
arrival order and before the incoming patch, when the NEXT
envelope for that name arrives, at which point the cell equals the
default with the buffered patches and then the new patch applied. -/
theorem C2_amended_drain_on_next_message
    (s : ClientState) (name : String) (v0 : Value) (p : Patch) (vfin : Value)
    (hInit : s.sseInitialized = true)
    (happly : applySeqOpt v0 (((alLookup name s.delayedUpdates).getD []) ++ [p])
      = some vfin) :
    alLookup name ((setupSseSignal s name v0).1.stateSignals) = some v0 ∧
    (setupSseSignal s name v0).1.delayedUpdates = s.delayedUpdates ∧
    (∃ s2 logs, handleMessage (setupSseSignal s name v0).1 (some ⟨name, p⟩)
        = some (s2, logs) ∧
      alLookup name s2.stateSignals = some vfin ∧
      alLookup name s2.delayedUpdates = none) := by
  have hset : (setupSseSignal s name v0).1
      = { s with stateSignals := alSet name v0 s.stateSignals } := by
    simp [setupSseSignal, hInit]
  refine ⟨?_, ?_, ?_⟩
  · rw [hset]
    exact alLookup_alSet_self name v0 s.stateSignals
  · rw [hset]
  · obtain ⟨vmid, hseq, hpatch⟩ := applySeqOpt_append_one happly
    rw [hset]
    refine ⟨{ s with
        stateSignals := alSet name vfin (alSet name v0 s.stateSignals),
        delayedUpdates := alRemove name s.delayedUpdates },
      [.msgReceived, .sseData], ?_, ?_, ?_⟩
    · simp only [handleMessage, alLookup_alSet_self, hseq, hpatch]
    · simp [alLookup_alSet_self]
    · simp [alLookup_alRemove_self]

theorem C2_witness :
    sBuf.sseInitialized = true ∧
    applySeqOpt vz (((alLookup "counter" sBuf.delayedUpdates).getD []) ++ [p23])
      = some vThree ∧
    (alLookup "counter" ((setupSseSignal sBuf "counter" vz).1.stateSignals) = some vz ∧
    (setupSseSignal sBuf "counter" vz).1.delayedUpdates = sBuf.delayedUpdates ∧
    (∃ s2 logs, handleMessage (setupSseSignal sBuf "counter" vz).1
        (some ⟨"counter", p23⟩) = some (s2, logs) ∧
      alLookup "counter" s2.stateSignals = some vThree ∧
      alLookup "counter" s2.delayedUpdates = none)) :=
  ⟨by decide, by decide,
    C2_amended_drain_on_next_message sBuf "counter" vz p23 vThree (by decide) (by decide)⟩

/-- Claim C3: when a message arrives for a registered name - in
whichever registry it is found, the sync one probed first or the
local one - the handler applies all patches buffered for that
name, in buffer (arrival) order, and then the envelope's own
patch: the resulting cell value is the fold of buffered-then-live
patches over the old cell value, and the buffer entry is drained.
No later-arrived patch is applied before an earlier-arrived one. -/
theorem C3_order_buffered_before_live
    (s : ClientState) (u : ServerSignalUpdate) (v vfin : Value)
    (happly : applySeqOpt v (((alLookup u.name s.delayedUpdates).getD []) ++ [u.patch])
      = some vfin) :
    (alLookup u.name s.stateSignals = some v →
      ∃ s2 logs, handleMessage s (some u) = some (s2, logs) ∧
        alLookup u.name s2.stateSignals = some vfin ∧
        alLookup u.name s2.delayedUpdates = none) ∧
    (alLookup u.name s.stateSignals = none →
      alLookup u.name s.stateSignalsLocal = some v →
      ∃ s2 logs, handleMessage s (some u) = some (s2, logs) ∧
        alLookup u.name s2.stateSignalsLocal = some vfin ∧
        alLookup u.name s2.delayedUpdates = none) := by
  obtain ⟨vmid, hseq, hpatch⟩ := applySeqOpt_append_one happly
  constructor
  · intro hreg
    refine ⟨{ s with
        stateSignals := alSet u.name vfin s.stateSignals,
        delayedUpdates := alRemove u.name s.delayedUpdates },
      [.msgReceived, .sseData], ?_, ?_, ?_⟩
    · simp only [handleMessage, hreg, hseq, hpatch]
    · simp [alLookup_alSet_self]
    · simp [alLookup_alRemove_self]
  · intro hmiss hreg
    refine ⟨{ s with
        stateSignalsLocal := alSet u.name vfin s.stateSignalsLocal,
        delayedUpdates := alRemove u.name s.delayedUpdates },
      [.msgReceived, .sseData], ?_, ?_, ?_⟩
    · simp only [handleMessage, hmiss, hreg, hseq, hpatch]
    · simp [alLookup_alSet_self]
    · simp [alLookup_alRemove_self]

theorem C3_witness :
    applySeqOpt vz (((alLookup "x" sRegBuf.delayedUpdates).getD []) ++ [p12])
      = some vTwo ∧
    alLookup "x" sRegBuf.stateSignals = some vz ∧
    (∃ s2 logs, handleMessage sRegBuf (some ⟨"x", p12⟩) = some (s2, logs) ∧
      alLookup "x" s2.stateSignals = some vTwo ∧
      alLookup "x" s2.delayedUpdates = none) :=
  ⟨by decide, by decide,
    (C3_order_buffered_before_live sRegBuf ⟨"x", p12⟩ vz vTwo (by decide)).1 (by decide)⟩

/-- Claim C4 counterexample: with x registered and its cell at
vFive, calling setup_sse_signal again for x with default vz leaves
the cell at vz: the second registration installed a fresh cell and
reset the value, refuting idempotent registration. -/
theorem C4_counterexample :
    alLookup "x" ((setupSseSignal sRegFive "x" vz).1.stateSignals) = some vz ∧
    vz ≠ vFive := by decide

/-- Claim C4 (amended): registering a name again is NOT idempotent
in the cell: a fresh cell holding the serialized default replaces
the previous one (the previous cell keeps its value but is no
longer reachable from the registry, so the first returned view
stops observing updates).  The pending buffer and the other
registry are untouched, so no buffered patch is lost or
duplicated. -/
theorem C4_amended_reregistration_resets
    (s : ClientState) (name : String) (v0 : Value)
    (hInit : s.sseInitialized = true) :
    alLookup name ((setupSseSignal s name v0).1.stateSignals) = some v0 ∧
    (setupSseSignal s name v0).1.delayedUpdates = s.delayedUpdates ∧
    (setupSseSignal s name v0).1.stateSignalsLocal = s.stateSignalsLocal := by
  simp [setupSseSignal, hInit, alLookup_alSet_self]

theorem C4_witness :
    sRegFive.sseInitialized = true ∧
    (alLookup "x" ((setupSseSignal sRegFive "x" vz).1.stateSignals) = some vz ∧
    (setupSseSignal sRegFive "x" vz).1.delayedUpdates = sRegFive.delayedUpdates ∧
    (setupSseSignal sRegFive "x" vz).1.stateSignalsLocal = sRegFive.stateSignalsLocal) :=
  ⟨by decide, C4_amended_reregistration_resets sRegFive "x" vz (by decide)⟩


/-- Claim C8: cross-signal isolation: whatever the handler does
with an envelope for one name (apply it to the sync or local cell,
or enqueue it), the cell values and the pending-buffer entry of
every other name are unchanged. -/
theorem C8_cross_signal_isolation
    (s s2 : ClientState) (u : ServerSignalUpdate) (logs : List LogEvent) (b : String)
    (hne : b ≠ u.name)
    (h : handleMessage s (some u) = some (s2, logs)) :
    alLookup b s2.stateSignals = alLookup b s.stateSignals ∧
    alLookup b s2.stateSignalsLocal = alLookup b s.stateSignalsLocal ∧
    alLookup b s2.delayedUpdates = alLookup b s.delayedUpdates := by
  simp only [handleMessage] at h
  split at h
  · split at h
    · simp at h
    · split at h
      · simp at h
      · rw [Option.some_inj] at h
        cases h
        simp [alLookup_alSet_ne hne, alLookup_alRemove_ne hne]
  · split at h
    · split at h
      · simp at h
      · split at h
        · simp at h
        · rw [Option.some_inj] at h
          cases h
          simp [alLookup_alSet_ne hne, alLookup_alRemove_ne hne]
    · rw [Option.some_inj] at h
      cases h
      simp [alLookup_alSet_ne hne]

theorem C8_witness :
    ("y" ≠ ("x" : String)) ∧
    handleMessage sReg (some ⟨"x", p01⟩)
      = some (sRegAfter, [.msgReceived, .sseData]) ∧
    (alLookup "y" sRegAfter.stateSignals = alLookup "y" sReg.stateSignals ∧
    alLookup "y" sRegAfter.stateSignalsLocal = alLookup "y" sReg.stateSignalsLocal ∧
    alLookup "y" sRegAfter.delayedUpdates = alLookup "y" sReg.delayedUpdates) :=
  ⟨by decide, by decide,
    C8_cross_signal_isolation sReg sRegAfter ⟨"x", p01⟩ [.msgReceived, .sseData] "y"
      (by decide) (by decide)⟩

/-- Claim C9: the sync registry is probed first; when the name is
found there, the handler's local-registry branch is never entered,
so the local registry - including any cell it holds under the
same name - is left entirely unchanged. -/
theorem C9_sync_registry_precedence
    (s s2 : ClientState) (u : ServerSignalUpdate) (logs : List LogEvent) (v : Value)
    (hsync : alLookup u.name s.stateSignals = some v)
    (h : handleMessage s (some u) = some (s2, logs)) :
    s2.stateSignalsLocal = s.stateSignalsLocal := by
  simp only [handleMessage, hsync] at h
  split at h
  · simp at h
  · split at h
    · simp at h
    · rw [Option.some_inj] at h
      cases h
      rfl

theorem C9_witness :
    alLookup "x" sBoth.stateSignals = some vz ∧
    handleMessage sBoth (some ⟨"x", p01⟩)
      = some (sBothAfter, [.msgReceived, .sseData]) ∧
    sBothAfter.stateSignalsLocal = sBoth.stateSignalsLocal :=
  ⟨by decide, by decide,
    C9_sync_registry_precedence sBoth sBothAfter ⟨"x", p01⟩ [.msgReceived, .sseData] vz
      (by decide) (by decide)⟩

theorem dispatchAll_enqueue (name : String) :
    ∀ (ps : List Patch) (s : ClientState),
      alLookup name s.stateSignals = none →
      alLookup name s.stateSignalsLocal = none →
      ∃ s2, dispatchAll s (ps.map (fun p =>
          some { name := name, patch := p })) = some s2 ∧
        s2.stateSignals = s.stateSignals ∧
        s2.stateSignalsLocal = s.stateSignalsLocal ∧
        (alLookup name s2.delayedUpdates).getD []
          = (alLookup name s.delayedUpdates).getD [] ++ ps
  | [], s, h1, h2 => ⟨s, by simp [dispatchAll], rfl, rfl, by simp⟩
  | p :: ps, s, h1, h2 => by
    have hstep : handleMessage s (some { name := name, patch := p })
        = some ({ s with delayedUpdates := alSet name (((alLookup name s.delayedUpdates).getD []) ++ [p]) s.delayedUpdates }, [.msgReceived, .sseData, .queueWarn name]) := by
      simp only [handleMessage, h1, h2]
    obtain ⟨s2, hd, hs, hl, hb⟩ := dispatchAll_enqueue name ps
      { s with delayedUpdates := alSet name (((alLookup name s.delayedUpdates).getD []) ++ [p]) s.delayedUpdates } h1 h2
    refine ⟨s2, ?_, hs, hl, ?_⟩
    · simp only [List.map_cons, dispatchAll, hstep, hd]
    · rw [hb]
      simp [alLookup_alSet_self]

/-- Claim C10: registering a signal before provide_sse has run
inserts nothing into either registry (only an error is logged and
the returned read signal keeps holding the serialized default,
since no cell is ever connected to it), and every envelope that
arrives for such a name is enqueued into the pending buffer, in
order, indefinitely - no dispatch of envelopes for it ever touches
a registry. -/
theorem C10_register_before_provide
    (s : ClientState) (name : String) (v0 : Value)
    (hInit : s.sseInitialized = false)
    (h1 : alLookup name s.stateSignals = none)
    (h2 : alLookup name s.stateSignalsLocal = none) :
    setupSseSignal s name v0 = (s, [.noSseError]) ∧
    setupSseSignalLocal s name v0 = (s, [.noSseError]) ∧
    ∀ ps : List Patch, ∃ s2,
      dispatchAll s (ps.map (fun p => some { name := name, patch := p })) = some s2 ∧
      s2.stateSignals = s.stateSignals ∧
      s2.stateSignalsLocal = s.stateSignalsLocal ∧
      (alLookup name s2.delayedUpdates).getD []
        = (alLookup name s.delayedUpdates).getD [] ++ ps := by
  refine ⟨by simp [setupSseSignal, hInit], by simp [setupSseSignalLocal, hInit], ?_⟩
  intro ps
  exact dispatchAll_enqueue name ps s h1 h2

theorem C10_witness :
    sNone.sseInitialized = false ∧
    alLookup "x" sNone.stateSignals = none ∧
    alLookup "x" sNone.stateSignalsLocal = none ∧
    (setupSseSignal sNone "x" vz = (sNone, [.noSseError]) ∧
    setupSseSignalLocal sNone "x" vz = (sNone, [.noSseError]) ∧
    ∀ ps : List Patch, ∃ s2,
      dispatchAll sNone (ps.map (fun p => some { name := "x", patch := p })) = some s2 ∧
      s2.stateSignals = sNone.stateSignals ∧
      s2.stateSignalsLocal = sNone.stateSignalsLocal ∧
      (alLookup "x" s2.delayedUpdates).getD []
        = (alLookup "x" sNone.delayedUpdates).getD [] ++ ps) :=
  ⟨by decide, by decide, by decide,
    C10_register_before_provide sNone "x" vz (by decide) (by decide) (by decide)⟩

end LeptosSse